import Mathlib

/-!
# Verification of the `forge clone` reconstruction pipeline

Shallow embedding of `crates/forge/src/cmd/clone.rs`: the metadata
collection step, the source-tree materializer (`dump_sources`), the build
configuration synthesizer (`update_config_by_metadata`), the artifact
scanner (`find_main_contract`) and the orchestrating pipeline
(`CloneArgs::run` / `CloneArgs::parse_metadata`).

Modelling conventions:
* Filesystem paths are lists of components (`List String`); `renderPath`
  produces the `/`-separated string form used where the Rust code works on
  strings (`to_string_lossy`, `str::starts_with`).  Paths are assumed to be
  in normalized component form (no empty or `.` components); the Rust
  `Path::components` normalization is not reproduced beyond that.
* The filesystem is the set of existing paths (`FS`); `std::fs::rename`
  becomes an insertion of the destination, `std::fs::remove_dir_all`
  removes a path together with its subtree and fails when the path does
  not exist, `std::fs::create_dir` fails when the path already exists —
  all faithful to the `std::fs` contracts the code relies on.
* Fallible Rust functions returning `eyre::Result` become `Except String`.
  The Rust code leaves partially-moved files on disk when it fails
  mid-loop (spec §7 documents this); no verified property reads the
  filesystem after a failure, so the error branches carry only the message.
-/

/-- Rust `str::starts_with` on the underlying characters. -/
def strStartsWith (s p : String) : Bool := p.data.isPrefixOf s.data

/-- Render a component path the way `Path::to_string_lossy` renders the
paths built by `clone.rs` (components joined by `/`). -/
def renderPath : List String → String
  | [] => ""
  | [a] => a
  | a :: rest => a ++ "/" ++ renderPath rest

/-- The filesystem as the set of existing paths. -/
abbrev FS := List (List String)

/-- `Path::exists`. -/
def FS.existsP (fs : FS) (p : List String) : Bool := decide (p ∈ fs)

/-- Effect of `std::fs::rename`/`std::fs::create_dir` on existence: the
destination path now exists. -/
def FS.insertP (fs : FS) (p : List String) : FS := p :: fs

/-- Effect of `std::fs::remove_dir_all`: the path and everything below it
is gone. -/
def FS.removeTree (fs : FS) (p : List String) : FS :=
  fs.filter (fun q => !(p.isPrefixOf q))

/-- `foundry_compilers::artifacts::remappings::Remapping`: an import alias
bound to a filesystem path.  The Rust field `path` is a rendered string;
here it is kept in component form (see the module conventions). -/
structure Remapping where
  context : Option String
  name : String
  path : List String
deriving Repr, DecidableEq

/-- One top-level entry of the staged source tree
(`raw_sources/<contract>/<name>`), together with the names of its
immediate children (what `read_dir(entry.path())` yields). -/
structure Entry where
  name : String
  children : List String
deriving Repr, DecidableEq

/-- The directory names recognized by the reorganization check in
`dump_sources` (clone.rs lines 452-463). -/
def recognizedEntry (n : String) : Bool :=
  n == "src" || n == "lib" || n == "node_modules" || n == "contracts" ||
  n == "hardhat" || n == "forge-std" || strStartsWith n "@"

/-- `to_reorg` (clone.rs line 452): reorganize unless the caller opted out
and only when every top-level staged entry is recognized. -/
def toReorgDecision (no_reorg : Bool) (entries : List Entry) : Bool :=
  !no_reorg && entries.all (fun e => recognizedEntry e.name)

/-- The top-level names that are flattened rather than moved whole
(clone.rs line 475). -/
def isFlattenName (n : String) : Bool :=
  n == "contracts" || n == "src" || n == "lib" || n == "node_modules"

/-- The directory a flattened entry's children are moved into
(clone.rs lines 481-489). -/
def flattenTarget (srcDir libDir nmDir : List String) (n : String) : List String :=
  if n == "lib" then libDir else if n == "node_modules" then nmDir else srcDir

/-- The inner loop of the flatten branch (clone.rs lines 490-504): each
immediate child is renamed into `newDir`, guarded by the
destination-exists check, and a `"{top}/{child}"` remapping is recorded. -/
def moveChildren (newDir : List String) (topName : String) :
    FS × List Remapping → List String → Except String (FS × List Remapping)
  | st, [] => .ok st
  | (fs, rs), c :: cs =>
    let dest := newDir ++ [c]
    if fs.existsP dest then .error ("destination already exists: " ++ renderPath dest)
    else moveChildren newDir topName
      (fs.insertP dest, rs ++ [⟨none, topName ++ "/" ++ c, dest⟩]) cs

/-- One iteration of the move loop of `dump_sources`
(clone.rs lines 470-538), handling a single top-level staged entry. -/
def moveEntry (srcDir libDir nmDir : List String) (toReorg : Bool)
    (st : FS × List Remapping) (e : Entry) : Except String (FS × List Remapping) :=
  let fs := st.1
  let rs := st.2
  if toReorg then
    if isFlattenName e.name then
      if e.name == "node_modules" then
        -- `std::fs::create_dir` fails if `node_modules` already exists
        if fs.existsP nmDir then .error ("failed to create node_modules directory")
        else moveChildren nmDir e.name (fs.insertP nmDir, rs) e.children
      else
        moveChildren (flattenTarget srcDir libDir nmDir e.name) e.name (fs, rs) e.children
    else if e.name == "hardhat" || e.name == "forge-std" || strStartsWith e.name "@" then
      let dest := libDir ++ [e.name]
      if e.name == "forge-std" then
        -- `std::fs::remove_dir_all(&dest)?` fails when `dest` does not exist
        if fs.existsP dest then
          let fs' := fs.removeTree dest
          if fs'.existsP dest then .error ("destination already exists: " ++ renderPath dest)
          else .ok (fs'.insertP dest, rs ++ [⟨none, e.name, dest⟩])
        else .error ("failed to remove forge-std from lib")
      else
        if fs.existsP dest then .error ("destination already exists: " ++ renderPath dest)
        else .ok (fs.insertP dest, rs ++ [⟨none, e.name, dest⟩])
    else .error ("assertion failed: unrecognized directory")
  else
    let dest := srcDir ++ [e.name]
    if fs.existsP dest then .error ("destination already exists: " ++ renderPath dest)
    else .ok (fs.insertP dest,
      if e.name == "src" then rs else rs ++ [⟨none, e.name, dest⟩])

/-- The move loop over all staged top-level entries. -/
def moveEntries (srcDir libDir nmDir : List String) (toReorg : Bool) :
    FS × List Remapping → List Entry → Except String (FS × List Remapping)
  | st, [] => .ok st
  | st, e :: es => do
    let st' ← moveEntry srcDir libDir nmDir toReorg st e
    moveEntries srcDir libDir nmDir toReorg st' es

/-- `PathBuf::from("src").join(PathBuf::from(&r.path).strip_prefix("contracts")?)`
(clone.rs line 549): `Path::strip_prefix` succeeds exactly when the first
path component is `contracts`, and otherwise aborts the caller via `?`. -/
def stripContractsToSrc : List String → Except String (List String)
  | "contracts" :: tail => .ok ("src" :: tail)
  | _ => .error "failed to strip prefix contracts"

/-- Rewriting of a metadata-declared remapping path (clone.rs lines
544-561).  The guard is Rust `String::starts_with` on the rendered string;
the strip is component-wise (`stripContractsToSrc`). -/
def rewriteMetaRemapping (toReorg : Bool) (r : Remapping) : Except String Remapping :=
  if toReorg then
    let s := renderPath r.path
    if strStartsWith s "contracts" then
      (stripContractsToSrc r.path).map (fun p => { r with path := p })
    else if strStartsWith s "@" || strStartsWith s "hardhat/" || strStartsWith s "forge-std/" then
      .ok { r with path := "lib" :: r.path }
    else .ok r
  else .ok r

/-- Modelled from the spec (§4.1 Remapping Model): the external
foundry-compilers `Remapping::into_relative`, which converts a path to one
relative to the given project root — a path under the root has the root
prefix stripped, any other path is kept (it is already relative). -/
def into_relative (root : List String) (r : Remapping) : Remapping :=
  if root.isPrefixOf r.path then { r with path := r.path.drop root.length } else r

/-- `dump_sources` (clone.rs lines 422-564).  `entries` is what `read_dir`
yields under the staged `raw_sources/<contract>` directory,
`preRemappings` is the result of the external `Remapping::find_many(root)`
scan, `metaRemappings` is `meta.settings()?.remappings`.  The staging
write (`source_tree.write_to`) and the final removal of the staging
directory touch only `raw_sources`, which no move destination is under,
so the staging paths are not tracked in `fs`. -/
def dump_sources (root : List String) (entries : List Entry)
    (preRemappings metaRemappings : List Remapping)
    (fs : FS) (no_reorg : Bool) : Except String (FS × List Remapping) :=
  let srcDir := root ++ ["src"]
  let libDir := root ++ ["lib"]
  let nmDir := root ++ ["node_modules"]
  let toReorg := toReorgDecision no_reorg entries
  if !fs.existsP srcDir then .error ("`src` directory must exists")
  else if !fs.existsP libDir then .error ("`lib` directory must exists")
  else do
    let st ← moveEntries srcDir libDir nmDir toReorg (fs, preRemappings) entries
    let metaRems ← metaRemappings.mapM (rewriteMetaRemapping toReorg)
    pure (st.1, (st.2 ++ metaRems).map (into_relative root))

/-!
## Build configuration synthesis (`update_config_by_metadata`)

The `toml_edit` document is modelled by its active profile section: an
ordered association list of keys to values, with sub-tables nested inside
values.  Assignment through `doc[k] = v` replaces in place or appends; the
`update_if_needed!` macro navigates with `get_mut` and fails loudly
(`cannot find the key`) on any missing key along its path, including the
final one.
-/

/-- A `toml_edit` value as used by `update_config_by_metadata`. -/
inductive TomlVal where
  | bool : Bool → TomlVal
  | int : Int → TomlVal
  | str : String → TomlVal
  | arr : List String → TomlVal
  | table : List (String × TomlVal) → TomlVal

/-- The active profile section of the configuration document. -/
abbrev Table := List (String × TomlVal)

/-- Key lookup in a table. -/
def Table.get : Table → String → Option TomlVal
  | [], _ => none
  | (k, v) :: rest, key => if k == key then some v else Table.get rest key

/-- `doc[key] = value`: replace in place, or append when absent. -/
def Table.set : Table → String → TomlVal → Table
  | [], key, v => [(key, v)]
  | (k, w) :: rest, key, v =>
    if k == key then (k, v) :: rest else (k, w) :: Table.set rest key v

/-- `remove_entry`. -/
def Table.remove (t : Table) (k : String) : Table :=
  t.filter (fun kv => kv.1 != k)

/-- The `update_if_needed!` navigation (clone.rs lines 322-338): every key
on the path must already exist (`get_mut`), including the last, which is
then overwritten.  A non-table value met before the last key makes the
next `get_mut` fail. -/
def Table.updatePath : Table → List String → TomlVal → Except String Table
  | t, [], _ => .ok t
  | t, [k], v =>
    if (t.get k).isSome then .ok (t.set k v)
    else .error ("cannot find the key: " ++ k)
  | t, k :: k' :: rest, v =>
    match t.get k with
    | some (.table sub) => do
      let sub' ← Table.updatePath sub (k' :: rest) v
      .ok (t.set k (.table sub'))
    | some _ => .error ("cannot find the key: " ++ k')
    | none => .error ("cannot find the key: " ++ k)

/-- Direct nested assignment `doc[k₁]...[kₙ] = v` (used for the
`optimizer_details` and `yulDetails` table resets): inserts freely. -/
def Table.setPath : Table → List String → TomlVal → Table
  | t, [], _ => t
  | t, [k], v => t.set k v
  | t, k :: k' :: rest, v =>
    let sub := match t.get k with
      | some (.table s) => s
      | _ => []
    t.set k (.table (Table.setPath sub (k' :: rest) v))

/-- `SettingsMetadata` from the fetched compiler settings. -/
structure SettingsMetadata where
  cbor_metadata : Option Bool
  use_literal_content : Option Bool
  bytecode_hash : Option String
deriving Repr, DecidableEq

/-- `YulDetails` of the optimizer details. -/
structure YulDetails where
  stack_allocation : Option Bool
  optimizer_steps : Option String
deriving Repr, DecidableEq

/-- `OptimizerDetails` of the fetched compiler settings. -/
structure OptimizerDetails where
  peephole : Option Bool
  inliner : Option Bool
  jumpdest_remover : Option Bool
  order_literals : Option Bool
  deduplicate : Option Bool
  cse : Option Bool
  constant_optimizer : Option Bool
  simple_counter_for_loop_unchecked_increment : Option Bool
  yul : Option Bool
  yul_details : Option YulDetails
deriving Repr, DecidableEq

/-- `Optimizer` of the fetched compiler settings. -/
structure Optimizer where
  enabled : Option Bool
  runs : Option Nat
  details : Option OptimizerDetails
deriving Repr, DecidableEq

/-- The fetched compiler `Settings` object, destructured at clone.rs line
352.  `libraries` is kept as the final `(path, libraryName, address)`
triples; the path pass through the external foundry-compilers
`apply_lib_remappings` / `with_stripped_file_prefixes` is not modelled
(no claim depends on it). -/
structure Settings where
  optimizer : Optimizer
  libraries : List (String × String × String)
  evm_version : Option String
  via_ir : Option Bool
  stop_after : Option String
  metadata : Option SettingsMetadata
  remappings : List Remapping
deriving Repr, DecidableEq

/-- One step of the synthesis sequence: a fallible `update_if_needed!`
with an optional value, or an unconditional nested assignment. -/
inductive ConfigOp where
  | upd : List String → Option TomlVal → ConfigOp
  | setKey : List String → TomlVal → ConfigOp

/-- The first key a step touches. -/
def ConfigOp.topKey : ConfigOp → Option String
  | .upd p _ => p.head?
  | .setKey p _ => p.head?

/-- Run one synthesis step on the document. -/
def runOp (t : Table) : ConfigOp → Except String Table
  | .upd _ none => .ok t
  | .upd p (some v) => t.updatePath p v
  | .setKey p v => .ok (t.setPath p v)

/-- Run a sequence of synthesis steps, stopping at the first failure and
returning the document as mutated so far. -/
def runOps : Table → List ConfigOp → Table × Except String Unit
  | t, [] => (t, .ok ())
  | t, op :: ops =>
    match runOp t op with
    | .ok t' => runOps t' ops
    | .error e => (t, .error e)

/-- Render the library bindings as `path:libraryName:address` triples
(clone.rs lines 407-412). -/
def renderLibs (libs : List (String × String × String)) : List String :=
  libs.map (fun l => l.1 ++ ":" ++ l.2.1 ++ ":" ++ l.2.2)

/-- The sequence of document updates performed after the `stop_after`
validation (clone.rs lines 356-413), in source order. -/
def configOps (s : Settings) : List ConfigOp :=
  [ .upd ["evm_version"] (s.evm_version.map .str),
    .upd ["via_ir"] (s.via_ir.map .bool) ]
  ++ (match s.metadata with
      | none => []
      | some m =>
        [ .upd ["cbor_metadata"] (m.cbor_metadata.map .bool),
          .upd ["use_literal_content"] (m.use_literal_content.map .bool),
          .upd ["bytecode_hash"] (m.bytecode_hash.map .str) ])
  ++ [ .upd ["optimizer"] (s.optimizer.enabled.map .bool),
       .upd ["optimizer_runs"] (s.optimizer.runs.map (fun n => .int n)) ]
  ++ (match s.optimizer.details with
      | none => []
      | some d =>
        [ .setKey ["optimizer_details"] (.table []),
          .upd ["optimizer_details", "peephole"] (d.peephole.map .bool),
          .upd ["optimizer_details", "inliner"] (d.inliner.map .bool),
          .upd ["optimizer_details", "jumpdestRemover"] (d.jumpdest_remover.map .bool),
          .upd ["optimizer_details", "orderLiterals"] (d.order_literals.map .bool),
          .upd ["optimizer_details", "deduplicate"] (d.deduplicate.map .bool),
          .upd ["optimizer_details", "cse"] (d.cse.map .bool),
          .upd ["optimizer_details", "constantOptimizer"] (d.constant_optimizer.map .bool),
          .upd ["optimizer_details", "simpleCounterForLoopUncheckedIncrement"]
            (d.simple_counter_for_loop_unchecked_increment.map .bool),
          .upd ["optimizer_details", "yul"] (d.yul.map .bool) ]
        ++ (match d.yul_details with
            | none => []
            | some y =>
              [ .setKey ["optimizer_details", "yulDetails"] (.table []),
                .upd ["optimizer_details", "yulDetails", "stackAllocation"]
                  (y.stack_allocation.map .bool),
                .upd ["optimizer_details", "yulDetails", "optimizerSteps"]
                  (y.optimizer_steps.map .str) ]))
  ++ [ .setKey ["libraries"] (.arr (renderLibs s.libraries)) ]

/-- `update_config_by_metadata` (clone.rs lines 313-416) on the active
profile section.  `version` is the already-parsed compiler version triple
(the parse itself lives in the external foundry-block-explorers crate).
The document is returned alongside the outcome because the Rust function
mutates it in place before it can fail. -/
def update_config_by_metadata (s : Settings) (version : Nat × Nat × Nat)
    (chainId : Int) (doc : Table) : Table × Except String Unit :=
  let doc := doc.set "chain_id" (.int chainId)
  let doc := doc.set "auto_detect_solc" (.bool false)
  let doc := doc.set "solc_version"
    (.str (toString version.1 ++ "." ++ toString version.2.1 ++ "." ++ toString version.2.2))
  if s.stop_after.isSome then (doc, .error "stop_after should be None")
  else runOps doc (configOps s)

/-- Modelled from the spec (§4.4): the external foundry-block-explorers
metadata parser maps an explorer report of "default" for the EVM target
version to an absent `evm_version` in the parsed `Settings`; any other
report is carried through. -/
def reported_evm_version (reported : String) : Option String :=
  if reported == "default" then none else some reported

/-!
## Compilation scan and pipeline orchestration
-/

/-- One artifact of the compile output as enumerated by
`artifacts_with_files`: source file, contract name, and whether the
artifact carries a storage layout. -/
structure ArtifactEntry where
  file : String
  contract : String
  hasStorageLayout : Bool
deriving Repr, DecidableEq

/-- The scanning loop of `find_main_contract` (clone.rs lines 581-593)
with its accumulator `rv`: a second match aborts immediately. -/
def find_main_loop (contract : String) :
    List ArtifactEntry → Option (String × ArtifactEntry) →
    Except String (String × ArtifactEntry)
  | [], none => .error "contract not found"
  | [], some p => .ok p
  | a :: rest, acc =>
    if a.contract == contract then
      match acc with
      | some _ => .error "multiple contracts with the same name found"
      | none => find_main_loop contract rest (some (a.file, a))
    else find_main_loop contract rest acc

/-- `find_main_contract` (clone.rs lines 577-594). -/
def find_main_contract (arts : List ArtifactEntry) (contract : String) :
    Except String (String × ArtifactEntry) :=
  find_main_loop contract arts none

/-- One fetched contract entry (`foundry_block_explorers` `Metadata`),
restricted to the fields the verified claims read. -/
structure Metadata where
  contract_name : String
  is_vyper : Bool
  entries : List Entry
  settings : Settings
deriving Repr, DecidableEq

/-- The fetch result (`ContractMetadata`): a list of contract entries. -/
structure ContractMetadata where
  items : List Metadata
deriving Repr, DecidableEq

/-- `CloneArgs::collect_metadata_from_client` (clone.rs lines 149-158):
exactly one entry is required, and Vyper contracts are rejected. -/
def collect_metadata_from_client (cm : ContractMetadata) : Except String Metadata :=
  match cm.items with
  | [m] => if m.is_vyper then .error "Vyper contracts are not supported" else .ok m
  | _ => .error "contract not found or ill-formed"

/-- The mutable local state the pipeline acts on: the filesystem, the
active profile section of `foundry.toml`, and the text files written. -/
structure World where
  fs : FS
  doc : Table
  files : List (List String × String)

/-- The observable side effects of one pipeline run, in order. -/
inductive Effect where
  | initProject
  | writeSources
  | writeConfig
  | writeRemappingsTxt
  | compile
  | writeCloneMeta
  | gitCommit
deriving Repr, DecidableEq

/-- Modelled from the spec (§6 Project initializer): the external
`forge init` scaffolding run by `init_an_empty_project` creates the
default skeleton (`src`, `lib`, `script`, `test`) under the root; the
example sources it creates are deleted again by clone.rs lines 173-175
and play no further role. -/
def init_project (root : List String) (w : World) : World :=
  let fs1 := w.fs.insertP (root ++ ["src"])
  let fs2 := fs1.insertP (root ++ ["lib"])
  let fs3 := fs2.insertP (root ++ ["script"])
  { w with fs := fs3.insertP (root ++ ["test"]) }

/-- Modelled from the spec (§4.1): the canonical string form
`"[context:]name=path"` of a finalized remapping, as exported to the
configuration document and `remappings.txt`. -/
def remapToString (r : Remapping) : String :=
  (match r.context with
   | some c => c ++ ":"
   | none => "") ++ r.name ++ "=" ++ renderPath r.path

/-- `CloneArgs::parse_metadata` (clone.rs lines 231-288): dump the
sources, store the final remappings and `auto_detect_remappings = false`
in the document, apply `update_config_by_metadata` (whose failure makes
the closure return `false`, so `Config::update_at` then skips the write —
it is not propagated), and optionally export `remappings.txt`, removing
the `remappings` key from the document after a successful export.  The
returned list records the side effects in order. -/
def parse_metadata_model (meta : Metadata) (root : List String) (chainId : Int)
    (version : Nat × Nat × Nat) (preRemappings : List Remapping)
    (w : World) (no_remappings_txt keep_directory_structure : Bool) :
    List Effect × Except String World :=
  match dump_sources root meta.entries preRemappings meta.settings.remappings
      w.fs keep_directory_structure with
  | .error e => ([Effect.writeSources], .error e)
  | .ok (fs', rems) =>
    let doc1 := (w.doc.set "remappings"
        (.arr (rems.map remapToString))).set "auto_detect_remappings" (.bool false)
    let updated := update_config_by_metadata meta.settings version chainId doc1
    let doc2 := match updated.2 with
      | .ok _ => updated.1
      | .error _ => doc1
    let w2 : World := { w with fs := fs', doc := doc2 }
    let es := [Effect.writeSources, Effect.writeConfig]
    if no_remappings_txt then (es, .ok w2)
    else
      let txtPath := root ++ ["remappings.txt"]
      if w2.fs.existsP txtPath then
        (es, .error "remappings.txt already exists, please remove it first")
      else
        let lines := match doc2.get "remappings" with
          | some (.arr xs) => xs
          | _ => []
        let w3 : World :=
          { fs := w2.fs.insertP txtPath
            doc := doc2.remove "remappings"
            files := (txtPath, String.intercalate "\n" lines) :: w2.files }
        (es ++ [Effect.writeRemappingsTxt, Effect.writeConfig], .ok w3)

/-- `CloneArgs::run` (clone.rs lines 97-143) as a transition producing the
effect trace and the outcome.  `fetched` is the block-explorer response,
`compileResult` the external compiler driver's answer, `creationOk`
whether the creation-data fetch succeeds. -/
def runModel (fetched : Except String ContractMetadata) (root : List String)
    (chainId : Int) (version : Nat × Nat × Nat) (preRemappings : List Remapping)
    (compileResult : Except String (List ArtifactEntry)) (commit : Bool)
    (no_remappings_txt keep_directory_structure : Bool) (w : World) :
    List Effect × Except String Unit :=
  match fetched with
  | .error e => ([], .error e)
  | .ok cm =>
    match collect_metadata_from_client cm with
    | .error e => ([], .error e)
    | .ok meta =>
      let w1 := init_project root w
      match parse_metadata_model meta root chainId version preRemappings w1
          no_remappings_txt keep_directory_structure with
      | (es, .error e) => (Effect.initProject :: es, .error e)
      | (es, .ok _) =>
        let es := Effect.initProject :: es ++ [Effect.compile]
        match compileResult with
        | .error e => (es, .error e)
        | .ok arts =>
          match find_main_contract arts meta.contract_name with
          | .error e => (es, .error e)
          | .ok (_, art) =>
            if !art.hasStorageLayout then (es, .error "storage layout not found")
            else
              let es := es ++ [Effect.writeCloneMeta]
              if commit then (es ++ [Effect.gitCommit], .ok ()) else (es, .ok ())

/-!
## Supporting lemmas
-/

/-- A path absent from a grown filesystem was absent before the growth. -/
theorem FS.existsP_insertP_false {fs : FS} {p q : List String}
    (h : (fs.insertP p).existsP q = false) : fs.existsP q = false := by
  simp only [FS.existsP, FS.insertP, decide_eq_false_iff_not, List.mem_cons] at h ⊢
  exact fun hq => h (Or.inr hq)

/-- A string starting with `@` begins with the character `@`. -/
theorem strStartsWith_at_head {s : String} (h : strStartsWith s "@" = true) :
    s.data.head? = some '@' := by
  rw [strStartsWith, List.isPrefixOf_iff_prefix] at h
  obtain ⟨t, ht⟩ := h
  rw [show ("@".data : List Char) = ['@'] from rfl] at ht
  rw [← ht]; rfl

/-- A scope-prefixed name is none of the fixed directory names the move
loop branches on. -/
theorem strStartsWith_at_names {n : String} (h : strStartsWith n "@" = true) :
    isFlattenName n = false ∧ (n == "hardhat") = false ∧ (n == "forge-std") = false := by
  have hh := strStartsWith_at_head h
  have hne : ∀ m : String, m.data.head? ≠ some '@' → (n == m) = false := by
    intro m hm
    apply beq_eq_false_iff_ne.mpr
    intro hcontra
    exact hm (hcontra ▸ hh)
  refine ⟨?_, hne _ (by decide), hne _ (by decide)⟩
  simp only [isFlattenName, Bool.or_eq_false_iff]
  exact ⟨⟨⟨hne _ (by decide), hne _ (by decide)⟩, hne _ (by decide)⟩, hne _ (by decide)⟩

/-- A list prefixed by an absolute root is itself absolute. -/
theorem head_of_prefix_abs {root q : List String} (h : root.head? = some "")
    (hq : root <+: q) : q.head? = some "" := by
  obtain ⟨t, ht⟩ := hq
  cases root with
  | nil => simp at h
  | cons a rt => simp only [List.head?_cons, Option.some.injEq] at h; subst h; simp [← ht]

/-- The scanning loop described through the matches it still has to see:
the accumulator holds a previous match, so any further match aborts. -/
theorem find_main_loop_characterization (contract : String) (l : List ArtifactEntry) :
    ∀ acc : Option (String × ArtifactEntry),
      find_main_loop contract l acc =
        match l.filter (fun a => a.contract == contract), acc with
        | [], none => .error "contract not found"
        | [], some p => .ok p
        | [a], none => .ok (a.file, a)
        | _ :: _, some _ => .error "multiple contracts with the same name found"
        | _ :: _ :: _, none => .error "multiple contracts with the same name found" := by
  induction l with
  | nil => intro acc; cases acc <;> rfl
  | cons a rest ih =>
    intro acc
    by_cases hc : (a.contract == contract) = true
    · rw [show find_main_loop contract (a :: rest) acc =
          (match acc with
           | some _ => Except.error "multiple contracts with the same name found"
           | none => find_main_loop contract rest (some (a.file, a))) by
        simp [find_main_loop, hc]]
      rw [show (a :: rest).filter (fun x => x.contract == contract) =
          a :: rest.filter (fun x => x.contract == contract) by simp [List.filter_cons, hc]]
      cases acc with
      | some p => cases hf : rest.filter (fun x => x.contract == contract) <;> rfl
      | none =>
        rw [ih (some (a.file, a))]
        cases hf : rest.filter (fun x => x.contract == contract) with
        | nil => rfl
        | cons b bs => simp
    · rw [show find_main_loop contract (a :: rest) acc = find_main_loop contract rest acc by
        simp [find_main_loop, hc]]
      rw [show (a :: rest).filter (fun x => x.contract == contract) =
          rest.filter (fun x => x.contract == contract) by
        simp [List.filter_cons, hc]]
      exact ih acc

/-- C8: `find_main_contract` errors with "contract not found" when no
artifact carries the target name, errors with the ambiguity message as
soon as two artifacts carry it, and returns the unique matching
(file, artifact) pair exactly when one artifact matches. -/
theorem find_main_contract_characterization (arts : List ArtifactEntry) (contract : String) :
    find_main_contract arts contract =
      match arts.filter (fun a => a.contract == contract) with
      | [] => .error "contract not found"
      | [a] => .ok (a.file, a)
      | _ :: _ :: _ => .error "multiple contracts with the same name found" := by
  rw [find_main_contract, find_main_loop_characterization]
  cases hf : arts.filter (fun a => a.contract == contract) with
  | nil => rfl
  | cons b bs => cases bs <;> rfl

/-- Setting one key leaves every other key unchanged. -/
theorem Table.get_set_ne (t : Table) (k k' : String) (v : TomlVal) (h : k ≠ k') :
    (t.set k v).get k' = t.get k' := by
  induction t with
  | nil => simp [Table.set, Table.get, h]
  | cons kv rest ih =>
    by_cases hk : (kv.1 == k) = true
    · have : kv.1 = k := by simpa using hk
      simp [Table.set, hk, Table.get, this, h]
    · by_cases hk' : (kv.1 == k') = true
      · simp [Table.set, hk, Table.get, hk', ih]
      · simp [Table.set, hk, Table.get, hk', ih]

/-- `update_if_needed!` writes only below the first key of its path. -/
theorem Table.updatePath_get_ne {t : Table} {p : List String} {v : TomlVal} {k : String}
    {t' : Table} (hp : p.head? ≠ some k) (h : t.updatePath p v = .ok t') :
    t'.get k = t.get k := by
  match p with
  | [] =>
    simp only [Table.updatePath] at h
    cases h; rfl
  | [k₁] =>
    have hk : k₁ ≠ k := by simpa using hp
    simp only [Table.updatePath] at h
    by_cases hg : (t.get k₁).isSome = true
    · rw [if_pos hg] at h
      cases h
      exact Table.get_set_ne t k₁ k v hk
    · rw [if_neg hg] at h
      cases h
  | k₁ :: k₂ :: rest =>
    have hk : k₁ ≠ k := by simpa using hp
    simp only [Table.updatePath] at h
    cases hg : t.get k₁ with
    | none => rw [hg] at h; cases h
    | some w =>
      rw [hg] at h
      cases w with
      | table sub =>
        cases hs : Table.updatePath sub (k₂ :: rest) v with
        | error e =>
          simp only [hs] at h
          exact Except.noConfusion h
        | ok sub' =>
          simp only [hs, Except.bind] at h
          cases h
          exact Table.get_set_ne t k₁ k _ hk
      | bool b => cases h
      | int n => cases h
      | str s => cases h
      | arr xs => cases h

/-- Direct nested assignment writes only below the first key of its path. -/
theorem Table.setPath_get_ne (t : Table) (p : List String) (v : TomlVal) (k : String)
    (hp : p.head? ≠ some k) : (t.setPath p v).get k = t.get k := by
  match p with
  | [] => rfl
  | [k₁] =>
    have hk : k₁ ≠ k := by simpa using hp
    exact Table.get_set_ne t k₁ k v hk
  | k₁ :: k₂ :: rest =>
    have hk : k₁ ≠ k := by simpa using hp
    exact Table.get_set_ne t k₁ k _ hk

/-- A synthesis step preserves a key it does not start at; a step with an
absent value preserves everything. -/
def opPreserves (k : String) (op : ConfigOp) : Prop :=
  op.topKey ≠ some k ∨ ∃ p, op = .upd p none

/-- Running one preserving step leaves the key unchanged. -/
theorem runOp_get_ne {t : Table} {op : ConfigOp} {k : String} {t' : Table}
    (hop : opPreserves k op) (h : runOp t op = .ok t') : t'.get k = t.get k := by
  cases op with
  | upd p v =>
    cases v with
    | none => simp only [runOp] at h; cases h; rfl
    | some w =>
      rcases hop with hne | ⟨q, hq⟩
      · exact Table.updatePath_get_ne (by simpa [ConfigOp.topKey] using hne) h
      · cases hq
  | setKey p v =>
    rcases hop with hne | ⟨q, hq⟩
    · simp only [runOp] at h
      cases h
      exact Table.setPath_get_ne t p v k (by simpa [ConfigOp.topKey] using hne)
    · cases hq

/-- Running a sequence of preserving steps leaves the key unchanged, even
when the sequence stops at a failing step. -/
theorem runOps_get_ne (ops : List ConfigOp) (t : Table) (k : String)
    (hops : ∀ op ∈ ops, opPreserves k op) : (runOps t ops).1.get k = t.get k := by
  induction ops generalizing t with
  | nil => rfl
  | cons op rest ih =>
    simp only [runOps]
    cases hr : runOp t op with
    | error e => rfl
    | ok t' =>
      rw [ih t' (fun o ho => hops o (List.mem_cons_of_mem _ ho)),
        runOp_get_ne (hops op (List.mem_cons_self _ _)) hr]

/-- C7: whenever the fetched settings declare a "stop after" phase,
`update_config_by_metadata` returns an error having written none of the
optimizer, library or metadata fields (only the chain id, the
auto-detection flag and the compiler version precede the validation), and
it can succeed only when the field is absent. -/
theorem update_config_stop_after_fatal (s : Settings) (version : Nat × Nat × Nat)
    (chainId : Int) (doc : Table) :
    (s.stop_after.isSome = true →
      (∃ e, (update_config_by_metadata s version chainId doc).2 = Except.error e) ∧
      ∀ k, k ∉ (["chain_id", "auto_detect_solc", "solc_version"] : List String) →
        (update_config_by_metadata s version chainId doc).1.get k = doc.get k) ∧
    (∀ u, (update_config_by_metadata s version chainId doc).2 = Except.ok u →
      s.stop_after = none) := by
  constructor
  · intro hstop
    constructor
    · refine ⟨"stop_after should be None", ?_⟩
      simp [update_config_by_metadata, hstop]
    · intro k hk
      have h1 : k ≠ "chain_id" := fun hh => hk (by simp [hh])
      have h2 : k ≠ "auto_detect_solc" := fun hh => hk (by simp [hh])
      have h3 : k ≠ "solc_version" := fun hh => hk (by simp [hh])
      simp only [update_config_by_metadata, hstop, if_true]
      rw [Table.get_set_ne _ _ _ _ (fun h => h3 h.symm),
        Table.get_set_ne _ _ _ _ (fun h => h2 h.symm),
        Table.get_set_ne _ _ _ _ (fun h => h1 h.symm)]
  · intro u hok
    cases hstop : s.stop_after with
    | none => rfl
    | some x =>
      rw [update_config_by_metadata] at hok
      rw [hstop] at hok
      simp at hok

/-- Witness for C7 at a concrete settings object declaring
`stop_after = "parsing"`. -/
theorem update_config_stop_after_fatal_witness :
    (update_config_by_metadata
        ⟨⟨none, none, none⟩, [], none, none, some "parsing", none, []⟩
        (0, 8, 20) 1 []).1.get "optimizer" = none := by
  have h := (update_config_stop_after_fatal
    ⟨⟨none, none, none⟩, [], none, none, some "parsing", none, []⟩ (0, 8, 20) 1 []).1
  rw [(h rfl).2 "optimizer" (by decide)]
  rfl

/-- Every synthesis step starts at one of the enumerated top-level keys. -/
theorem configOps_topKey_mem (s : Settings) :
    ∀ op ∈ configOps s, op.topKey ∈ ([some "evm_version", some "via_ir",
      some "cbor_metadata", some "use_literal_content", some "bytecode_hash",
      some "optimizer", some "optimizer_runs", some "optimizer_details",
      some "libraries"] : List (Option String)) := by
  intro op hop
  rw [configOps] at hop
  rcases List.mem_append.mp hop with hop | hop
  swap
  · fin_cases hop; simp [ConfigOp.topKey]
  rcases List.mem_append.mp hop with hop | hop
  swap
  · cases hdet : s.optimizer.details with
    | none => rw [hdet] at hop; simp at hop
    | some d =>
      rw [hdet] at hop
      rcases List.mem_append.mp hop with hop | hop
      · fin_cases hop <;> simp [ConfigOp.topKey]
      · cases hyd : d.yul_details with
        | none => rw [hyd] at hop; simp at hop
        | some y => rw [hyd] at hop; fin_cases hop <;> simp [ConfigOp.topKey]
  rcases List.mem_append.mp hop with hop | hop
  swap
  · fin_cases hop <;> simp [ConfigOp.topKey]
  rcases List.mem_append.mp hop with hop | hop
  · fin_cases hop <;> simp [ConfigOp.topKey]
  · cases hmd : s.metadata with
    | none => rw [hmd] at hop; simp at hop
    | some m => rw [hmd] at hop; fin_cases hop <;> simp [ConfigOp.topKey]

/-- A key outside the enumerated set is preserved by every synthesis step. -/
theorem configOps_preserve_other (s : Settings) (k : String)
    (hk : (some k : Option String) ∉ ([some "evm_version", some "via_ir",
      some "cbor_metadata", some "use_literal_content", some "bytecode_hash",
      some "optimizer", some "optimizer_runs", some "optimizer_details",
      some "libraries"] : List (Option String))) :
    ∀ op ∈ configOps s, opPreserves k op := by
  intro op hop
  exact Or.inl (fun hcontra => hk (hcontra ▸ configOps_topKey_mem s op hop))

/-- With an absent evm version, every synthesis step preserves the
`evm_version` key. -/
theorem configOps_preserve_evm (s : Settings) (h : s.evm_version = none) :
    ∀ op ∈ configOps s, opPreserves "evm_version" op := by
  intro op hop
  rw [configOps] at hop
  rcases List.mem_append.mp hop with hop | hop
  swap
  · fin_cases hop; exact Or.inl (by simp [ConfigOp.topKey])
  rcases List.mem_append.mp hop with hop | hop
  swap
  · cases hdet : s.optimizer.details with
    | none => rw [hdet] at hop; simp at hop
    | some d =>
      rw [hdet] at hop
      rcases List.mem_append.mp hop with hop | hop
      · fin_cases hop <;> exact Or.inl (by simp [ConfigOp.topKey])
      · cases hyd : d.yul_details with
        | none => rw [hyd] at hop; simp at hop
        | some y => rw [hyd] at hop; fin_cases hop <;> exact Or.inl (by simp [ConfigOp.topKey])
  rcases List.mem_append.mp hop with hop | hop
  swap
  · fin_cases hop <;> exact Or.inl (by simp [ConfigOp.topKey])
  rcases List.mem_append.mp hop with hop | hop
  · fin_cases hop
    · exact Or.inr ⟨["evm_version"], by simp [h]⟩
    · exact Or.inl (by simp [ConfigOp.topKey])
  · cases hmd : s.metadata with
    | none => rw [hmd] at hop; simp at hop
    | some m => rw [hmd] at hop; fin_cases hop <;> exact Or.inl (by simp [ConfigOp.topKey])

/-- C6: the synthesized document carries an `evm_version` entry only when
the explorer did not report "default"; on a "default" report the key is
left exactly as it was (in particular unset when it was unset), to be
derived later from the compiler version. -/
theorem evm_version_set_only_if_not_default (reported : String) (s : Settings)
    (version : Nat × Nat × Nat) (chainId : Int) (doc : Table)
    (hs : s.evm_version = reported_evm_version reported) :
    (reported = "default" →
      (update_config_by_metadata s version chainId doc).1.get "evm_version" =
        doc.get "evm_version") ∧
    ((update_config_by_metadata s version chainId doc).1.get "evm_version" ≠
        doc.get "evm_version" → reported ≠ "default") := by
  have main : reported = "default" →
      (update_config_by_metadata s version chainId doc).1.get "evm_version" =
        doc.get "evm_version" := by
    intro hrep
    have hnone : s.evm_version = none := by
      rw [hs, hrep]; simp [reported_evm_version]
    rw [update_config_by_metadata]
    by_cases hstop : s.stop_after.isSome = true
    · rw [if_pos hstop]
      rw [Table.get_set_ne _ _ _ _ (by decide), Table.get_set_ne _ _ _ _ (by decide),
        Table.get_set_ne _ _ _ _ (by decide)]
    · rw [if_neg hstop]
      rw [runOps_get_ne _ _ _ (configOps_preserve_evm s hnone)]
      rw [Table.get_set_ne _ _ _ _ (by decide), Table.get_set_ne _ _ _ _ (by decide),
        Table.get_set_ne _ _ _ _ (by decide)]
  exact ⟨main, fun hne hrep => hne (main hrep)⟩

/-- Witness for C6: a "default" report leaves a pre-existing
`evm_version` entry untouched. -/
theorem evm_version_set_only_if_not_default_witness :
    (update_config_by_metadata
        ⟨⟨none, none, none⟩, [], reported_evm_version "default", none, none, none, []⟩
        (0, 8, 20) 1 [("evm_version", TomlVal.str "london")]).1.get "evm_version" =
      some (TomlVal.str "london") := by
  have h := (evm_version_set_only_if_not_default "default"
    ⟨⟨none, none, none⟩, [], reported_evm_version "default", none, none, none, []⟩
    (0, 8, 20) 1 [("evm_version", TomlVal.str "london")] rfl).1 rfl
  rw [h]; rfl

/-- Setting a key makes it hold exactly the assigned value. -/
theorem Table.get_set_self (t : Table) (k : String) (v : TomlVal) :
    (t.set k v).get k = some v := by
  induction t with
  | nil => simp [Table.set, Table.get]
  | cons kv rest ih =>
    by_cases hk : (kv.1 == k) = true
    · have : kv.1 = k := by simpa using hk
      simp [Table.set, hk, Table.get, this]
    · simp [Table.set, hk, Table.get, ih]

/-- A removed key is gone. -/
theorem Table.get_remove_self (t : Table) (k : String) : (t.remove k).get k = none := by
  induction t with
  | nil => rfl
  | cons kv rest ih =>
    by_cases hk : (kv.1 == k) = true
    · have : kv.1 = k := by simpa using hk
      simp [Table.remove, List.filter_cons, this, Table.get, ih]
      simpa [Table.remove] using ih
    · have hne : (kv.1 != k) = true := by simp [bne]; simpa using hk
      simp [Table.remove, List.filter_cons, hne, Table.get, hk]
      simpa [Table.remove] using ih

/-- The whole synthesis never touches the `remappings` key. -/
theorem update_config_preserves_remappings (s : Settings) (version : Nat × Nat × Nat)
    (chainId : Int) (doc : Table) :
    (update_config_by_metadata s version chainId doc).1.get "remappings" =
      doc.get "remappings" := by
  rw [update_config_by_metadata]
  by_cases hstop : s.stop_after.isSome = true
  · rw [if_pos hstop]
    rw [Table.get_set_ne _ _ _ _ (by decide), Table.get_set_ne _ _ _ _ (by decide),
      Table.get_set_ne _ _ _ _ (by decide)]
  · rw [if_neg hstop]
    rw [runOps_get_ne _ _ _ (configOps_preserve_other s "remappings" (by decide))]
    rw [Table.get_set_ne _ _ _ _ (by decide), Table.get_set_ne _ _ _ _ (by decide),
      Table.get_set_ne _ _ _ _ (by decide)]

/-- C10: when the `remappings.txt` export is enabled and the file is not
already present, a successful `parse_metadata` leaves no `remappings` key
in the profile section and has written the final remappings, one per
line, to `remappings.txt` — they live only in the exported file. -/
theorem remappings_txt_export_removes_config_key (meta : Metadata) (root : List String)
    (chainId : Int) (version : Nat × Nat × Nat) (preR : List Remapping)
    (w : World) (kds : Bool) (es : List Effect) (w' : World)
    (h : parse_metadata_model meta root chainId version preR w false kds = (es, .ok w')) :
    w'.doc.get "remappings" = none ∧
    ∃ fs' rems,
      dump_sources root meta.entries preR meta.settings.remappings w.fs kds =
        .ok (fs', rems) ∧
      (root ++ ["remappings.txt"],
        String.intercalate "\n" (rems.map remapToString)) ∈ w'.files := by
  rw [parse_metadata_model] at h
  cases hd : dump_sources root meta.entries preR meta.settings.remappings w.fs kds with
  | error e => rw [hd] at h; simp at h
  | ok pr =>
    obtain ⟨fs', rems⟩ := pr
    rw [hd] at h
    simp only at h
    rw [if_neg (by simp)] at h
    cases hex : fs'.existsP (root ++ ["remappings.txt"]) with
    | true => rw [hex] at h; simp at h
    | false =>
      rw [hex] at h
      simp only [Bool.false_eq_true, if_false, Prod.mk.injEq] at h
      obtain ⟨hes, hw⟩ := h
      have hw' : w' = _ := (Except.ok.inj hw).symm
      subst hw'
      have hdoc1 : ((w.doc.set "remappings"
            (.arr (rems.map remapToString))).set "auto_detect_remappings"
            (.bool false)).get "remappings" =
          some (.arr (rems.map remapToString)) := by
        rw [Table.get_set_ne _ _ _ _ (by decide), Table.get_set_self]
      have hdoc2 : (match (update_config_by_metadata meta.settings version chainId
            ((w.doc.set "remappings" (.arr (rems.map remapToString))).set
              "auto_detect_remappings" (.bool false))).2 with
          | .ok _ => (update_config_by_metadata meta.settings version chainId
              ((w.doc.set "remappings" (.arr (rems.map remapToString))).set
                "auto_detect_remappings" (.bool false))).1
          | .error _ => (w.doc.set "remappings"
              (.arr (rems.map remapToString))).set "auto_detect_remappings"
              (.bool false)).get "remappings" =
          some (.arr (rems.map remapToString)) := by
        cases hu : (update_config_by_metadata meta.settings version chainId
            ((w.doc.set "remappings" (.arr (rems.map remapToString))).set
              "auto_detect_remappings" (.bool false))).2 with
        | ok u => rw [update_config_preserves_remappings]; exact hdoc1
        | error e => exact hdoc1
      constructor
      · exact Table.get_remove_self _ _
      · refine ⟨fs', rems, rfl, ?_⟩
        rw [hdoc2]
        exact List.mem_cons_self _ _

/-- Witness for C10: a concrete successful export run ends with no
`remappings` key in the profile section. -/
theorem remappings_txt_export_removes_config_key_witness :
    (World.mk [["r", "remappings.txt"], ["r", "src"], ["r", "lib"]]
        [("auto_detect_remappings", TomlVal.bool false), ("chain_id", TomlVal.int 1),
          ("auto_detect_solc", TomlVal.bool false), ("solc_version", TomlVal.str "0.8.20"),
          ("libraries", TomlVal.arr [])]
        [(["r", "remappings.txt"], "")]).doc.get "remappings" = none :=
  (remappings_txt_export_removes_config_key
    ⟨"C", false, [], ⟨⟨none, none, none⟩, [], none, none, none, none, []⟩⟩
    ["r"] 1 (0, 8, 20) []
    ⟨[["r", "src"], ["r", "lib"]], [], []⟩ false
    [Effect.writeSources, Effect.writeConfig, Effect.writeRemappingsTxt, Effect.writeConfig]
    (World.mk [["r", "remappings.txt"], ["r", "src"], ["r", "lib"]]
      [("auto_detect_remappings", TomlVal.bool false), ("chain_id", TomlVal.int 1),
        ("auto_detect_solc", TomlVal.bool false), ("solc_version", TomlVal.str "0.8.20"),
        ("libraries", TomlVal.arr [])]
      [(["r", "remappings.txt"], "")])
    rfl).1

/-- C1: a fetch resolving to zero or several contract entries, or to a
Vyper contract, makes `collect_metadata_from_client` fail, and the whole
run aborts with an empty effect trace — no project initialization, source
dump or configuration write has happened. -/
theorem collect_metadata_rejects_before_any_mutation (cm : ContractMetadata)
    (h : cm.items.length ≠ 1 ∨ ∃ m, cm.items = [m] ∧ m.is_vyper = true) :
    (∃ e, collect_metadata_from_client cm = .error e) ∧
    ∀ (root : List String) (chainId : Int) (version : Nat × Nat × Nat)
      (preR : List Remapping) (compileResult : Except String (List ArtifactEntry))
      (commit nrt kds : Bool) (w : World),
      ∃ e, runModel (.ok cm) root chainId version preR compileResult commit nrt kds w =
        ([], Except.error e) := by
  have herr : ∃ e, collect_metadata_from_client cm = .error e := by
    match hm : cm.items with
    | [] => exact ⟨_, by rw [collect_metadata_from_client, hm]⟩
    | [m] =>
      rcases h with hlen | ⟨m', hm', hv⟩
      · rw [hm] at hlen; simp at hlen
      · rw [hm] at hm'
        cases hm'
        refine ⟨"Vyper contracts are not supported", ?_⟩
        rw [collect_metadata_from_client, hm]
        simp only [hv, if_true]
    | a :: b :: rest => exact ⟨_, by rw [collect_metadata_from_client, hm]⟩
  refine ⟨herr, ?_⟩
  intro root chainId version preR compileResult commit nrt kds w
  obtain ⟨e, he⟩ := herr
  refine ⟨e, ?_⟩
  rw [runModel, he]

/-- Witness for C1: an empty fetch result produces an error and an empty
effect trace. -/
theorem collect_metadata_rejects_before_any_mutation_witness :
    (runModel (.ok ⟨[]⟩) ["r"] 1 (0, 8, 20) [] (.ok []) false false false
      ⟨[], [], []⟩).1 = [] := by
  obtain ⟨e, he⟩ := (collect_metadata_rejects_before_any_mutation ⟨[]⟩
    (Or.inl (by decide))).2 ["r"] 1 (0, 8, 20) [] (.ok []) false false false ⟨[], [], []⟩
  rw [he]

/-- A successful flatten of children found every destination free in the
filesystem it started from. -/
theorem moveChildren_fresh (newDir : List String) (topName : String)
    (cs : List String) (fs : FS) (rs : List Remapping) (st' : FS × List Remapping)
    (h : moveChildren newDir topName (fs, rs) cs = .ok st') :
    ∀ c ∈ cs, fs.existsP (newDir ++ [c]) = false := by
  induction cs generalizing fs rs with
  | nil => intro c hc; cases hc
  | cons c cs ih =>
    rw [moveChildren] at h
    by_cases hex : fs.existsP (newDir ++ [c]) = true
    · rw [if_pos hex] at h; exact absurd h (by simp)
    · have hex' : fs.existsP (newDir ++ [c]) = false := by simpa using hex
      rw [if_neg hex] at h
      intro c' hc'
      rcases List.mem_cons.mp hc' with rfl | hc'
      · exact hex'
      · exact FS.existsP_insertP_false (ih _ _ h c' hc')

/-- A successful `moveEntry` found every destination it renamed onto
free, in every branch except the forge-std override. -/
theorem moveEntry_fresh (srcDir libDir nmDir : List String) (toReorg : Bool)
    (fs : FS) (rs : List Remapping) (e : Entry) (st' : FS × List Remapping)
    (h : moveEntry srcDir libDir nmDir toReorg (fs, rs) e = .ok st') :
    (toReorg = true → isFlattenName e.name = true →
      ∀ c ∈ e.children,
        fs.existsP (flattenTarget srcDir libDir nmDir e.name ++ [c]) = false) ∧
    (toReorg = true → isFlattenName e.name = false → e.name ≠ "forge-std" →
      fs.existsP (libDir ++ [e.name]) = false) ∧
    (toReorg = false → fs.existsP (srcDir ++ [e.name]) = false) := by
  refine ⟨?_, ?_, ?_⟩
  · intro ht hflat c hc
    subst ht
    simp only [moveEntry, if_true, hflat] at h
    by_cases hnm : (e.name == "node_modules") = true
    · rw [if_pos hnm] at h
      cases hex2 : fs.existsP nmDir with
      | true => rw [if_pos hex2] at h; exact absurd h (by simp)
      | false =>
        rw [if_neg (by simp [hex2])] at h
        have hname : e.name = "node_modules" := by simpa using hnm
        have hfr := moveChildren_fresh _ _ _ _ _ _ h c hc
        have := FS.existsP_insertP_false hfr
        rw [hname]
        simpa [flattenTarget] using this
    · rw [if_neg hnm] at h
      exact moveChildren_fresh _ _ _ _ _ _ h c hc
  · intro ht hflat hnfs
    subst ht
    simp only [moveEntry, if_true, hflat, Bool.false_eq_true, if_false] at h
    cases hg : (e.name == "hardhat" || e.name == "forge-std" || strStartsWith e.name "@") with
    | false => rw [if_neg (by simp [hg])] at h; exact absurd h (by simp)
    | true =>
      rw [if_pos (by simp [hg])] at h
      have hfs : (e.name == "forge-std") = false := by
        simpa using hnfs
      rw [if_neg (by simp [hfs])] at h
      cases hex : fs.existsP (libDir ++ [e.name]) with
      | true => rw [if_pos hex] at h; exact absurd h (by simp)
      | false => rfl
  · intro ht
    subst ht
    simp only [moveEntry, Bool.false_eq_true, if_false] at h
    cases hex : fs.existsP (srcDir ++ [e.name]) with
    | true => rw [if_pos hex] at h; exact absurd h (by simp)
    | false => rfl

/-- C2: every move of the materializer whose destination path already
exists is a fatal error — the flatten branch, the whole-unit branch
(except the forge-std well-known-scaffolding override) and the
no-reorganize branch all abort, never overwriting — and a failing
`dump_sources` aborts the run before any compile effect can appear in the
trace. -/
theorem moves_abort_on_existing_destination :
    (∀ (srcDir libDir nmDir : List String) (toReorg : Bool) (fs : FS)
      (rs : List Remapping) (e : Entry) (st' : FS × List Remapping),
      moveEntry srcDir libDir nmDir toReorg (fs, rs) e = .ok st' →
      (toReorg = true → isFlattenName e.name = true →
        ∀ c ∈ e.children,
          fs.existsP (flattenTarget srcDir libDir nmDir e.name ++ [c]) = false) ∧
      (toReorg = true → isFlattenName e.name = false → e.name ≠ "forge-std" →
        fs.existsP (libDir ++ [e.name]) = false) ∧
      (toReorg = false → fs.existsP (srcDir ++ [e.name]) = false)) ∧
    (∀ (meta : Metadata) (root : List String) (chainId : Int)
      (version : Nat × Nat × Nat) (preR : List Remapping)
      (compileResult : Except String (List ArtifactEntry)) (commit nrt kds : Bool)
      (w : World),
      meta.is_vyper = false →
      (∃ e, dump_sources root meta.entries preR meta.settings.remappings
          (init_project root w).fs kds = .error e) →
      Effect.compile ∉ (runModel (.ok ⟨[meta]⟩) root chainId version preR
          compileResult commit nrt kds w).1 ∧
      ∃ e, (runModel (.ok ⟨[meta]⟩) root chainId version preR compileResult
          commit nrt kds w).2 = .error e) := by
  constructor
  · intro srcDir libDir nmDir toReorg fs rs e st' h
    exact moveEntry_fresh srcDir libDir nmDir toReorg fs rs e st' h
  · intro meta root chainId version preR compileResult commit nrt kds w hvy hdump
    obtain ⟨e, he⟩ := hdump
    have hcol : collect_metadata_from_client ⟨[meta]⟩ = .ok meta := by
      rw [collect_metadata_from_client]
      simp [hvy]
    have hrun : runModel (.ok ⟨[meta]⟩) root chainId version preR compileResult
        commit nrt kds w =
        ([Effect.initProject, Effect.writeSources], .error e) := by
      rw [runModel]
      simp only [hcol, parse_metadata_model, he]
    rw [hrun]
    refine ⟨?_, ⟨e, rfl⟩⟩
    simp

/-- Witness for C2: a concrete no-reorganize move that succeeded had a
free destination, and a concrete colliding run never reaches the compile
stage. -/
theorem moves_abort_on_existing_destination_witness :
    FS.existsP [["r", "lib"]] (["r", "src"] ++ ["x"]) = false ∧
    Effect.compile ∉ (runModel
      (.ok ⟨[⟨"C", false, [⟨"x", []⟩],
        ⟨⟨none, none, none⟩, [], none, none, none, none, []⟩⟩]⟩)
      ["r"] 1 (0, 8, 20) [] (.ok []) false false false
      ⟨[["r", "src", "x"]], [], []⟩).1 := by
  constructor
  · exact (moves_abort_on_existing_destination.1 ["r", "src"] ["r", "lib"]
      ["r", "node_modules"] false [["r", "lib"]] [] ⟨"x", []⟩
      ([["r", "src", "x"], ["r", "lib"]], [⟨none, "x", ["r", "src", "x"]⟩]) rfl).2.2 rfl
  · exact (moves_abort_on_existing_destination.2
      ⟨"C", false, [⟨"x", []⟩], ⟨⟨none, none, none⟩, [], none, none, none, none, []⟩⟩
      ["r"] 1 (0, 8, 20) [] (.ok []) false false false
      ⟨[["r", "src", "x"]], [], []⟩ rfl ⟨"destination already exists: r/src/x", rfl⟩).1

/-- The no-reorganize loop only ever adds paths. -/
theorem moveEntries_false_mono (srcDir libDir nmDir : List String) (es : List Entry)
    (fs : FS) (rs : List Remapping) (st' : FS × List Remapping) (p : List String)
    (h : moveEntries srcDir libDir nmDir false (fs, rs) es = .ok st')
    (hp : fs.existsP p = true) : st'.1.existsP p = true := by
  induction es generalizing fs rs with
  | nil => rw [moveEntries] at h; cases h; exact hp
  | cons e es ih =>
    rw [moveEntries] at h
    cases hme : moveEntry srcDir libDir nmDir false (fs, rs) e with
    | error err => rw [hme] at h; exact Except.noConfusion h
    | ok st'' =>
      rw [hme] at h
      obtain ⟨fs'', rs''⟩ := st''
      simp only [moveEntry, Bool.false_eq_true, if_false] at hme
      cases hex : fs.existsP (srcDir ++ [e.name]) with
      | true => rw [if_pos hex] at hme; exact absurd hme (by simp)
      | false =>
        rw [if_neg (by simp [hex])] at hme
        have hfs'' : fs'' = fs.insertP (srcDir ++ [e.name]) :=
          (congrArg Prod.fst (Except.ok.inj hme)).symm
        refine ih _ _ h ?_
        rw [hfs'']
        simp only [FS.insertP, FS.existsP, decide_eq_true_eq, List.mem_cons] at hp ⊢
        exact Or.inr hp

/-- The no-reorganize loop moves every top-level entry into the source
directory and records an own-name remapping for everything but `src`. -/
theorem moveEntries_false_spec (srcDir libDir nmDir : List String) (es : List Entry)
    (fs : FS) (rs : List Remapping) (st' : FS × List Remapping)
    (h : moveEntries srcDir libDir nmDir false (fs, rs) es = .ok st') :
    st'.2 = rs ++ es.filterMap (fun e => if e.name == "src" then none
      else some ⟨none, e.name, srcDir ++ [e.name]⟩) ∧
    ∀ e ∈ es, st'.1.existsP (srcDir ++ [e.name]) = true := by
  induction es generalizing fs rs with
  | nil =>
    rw [moveEntries] at h
    cases h
    exact ⟨by simp, by intro e he; cases he⟩
  | cons e es ih =>
    rw [moveEntries] at h
    cases hme : moveEntry srcDir libDir nmDir false (fs, rs) e with
    | error err => rw [hme] at h; exact Except.noConfusion h
    | ok st'' =>
      rw [hme] at h
      obtain ⟨fs'', rs''⟩ := st''
      simp only [moveEntry, Bool.false_eq_true, if_false] at hme
      cases hex : fs.existsP (srcDir ++ [e.name]) with
      | true => rw [if_pos hex] at hme; exact absurd hme (by simp)
      | false =>
        rw [if_neg (by simp [hex])] at hme
        have hfs'' : fs'' = fs.insertP (srcDir ++ [e.name]) :=
          (congrArg Prod.fst (Except.ok.inj hme)).symm
        have hrs'' : rs'' = if (e.name == "src") = true then rs
            else rs ++ [⟨none, e.name, srcDir ++ [e.name]⟩] :=
          (congrArg Prod.snd (Except.ok.inj hme)).symm
        obtain ⟨ih1, ih2⟩ := ih _ _ h
        constructor
        · rw [ih1, hrs'']
          by_cases hsrc : (e.name == "src") = true
          · have h' : e.name = "src" := by simpa using hsrc
            simp [List.filterMap_cons, hsrc, h']
          · have h' : ¬ e.name = "src" := by simpa using hsrc
            simp [List.filterMap_cons, hsrc, h', List.append_assoc]
        · intro e' he'
          rcases List.mem_cons.mp he' with rfl | he'
          · refine moveEntries_false_mono _ _ _ _ _ _ _ _ h ?_
            rw [hfs'']
            simp [FS.insertP, FS.existsP]
          · exact ih2 e' he'

/-- With reorganization off, metadata remappings pass through untouched. -/
theorem mapM_rewrite_false (l : List Remapping) :
    l.mapM (rewriteMetaRemapping false) = .ok l := by
  induction l with
  | nil => rfl
  | cons r rest ih =>
    rw [List.mapM_cons]
    have hr : rewriteMetaRemapping false r = .ok r := rfl
    rw [hr, ih]
    rfl

/-- C3: `dump_sources` reorganizes exactly when the caller did not opt out
and every staged top-level entry is in the recognized set; as soon as any
entry falls outside the set, reorganization is off and a successful run
has moved the whole staged tree into the canonical source directory,
registering every top-level entry except `src` as a remapping of its own
name. -/
theorem dump_sources_reorg_decision (root : List String) (entries : List Entry)
    (preR metaR : List Remapping) (fs : FS) (kds : Bool) :
    (toReorgDecision kds entries = true ↔
      kds = false ∧ ∀ e ∈ entries, recognizedEntry e.name = true) ∧
    ∀ fs' out, (∃ e ∈ entries, recognizedEntry e.name = false) →
      dump_sources root entries preR metaR fs kds = .ok (fs', out) →
      (∀ e ∈ entries, fs'.existsP ((root ++ ["src"]) ++ [e.name]) = true) ∧
      out = (preR ++ entries.filterMap (fun (e : Entry) => if e.name == "src" then none
          else some (⟨none, e.name, (root ++ ["src"]) ++ [e.name]⟩ : Remapping)) ++ metaR).map
        (into_relative root) := by
  constructor
  · simp [toReorgDecision, Bool.and_eq_true, Bool.not_eq_true', List.all_eq_true]
  · intro fs' out hun hok
    have hall : entries.all (fun e => recognizedEntry e.name) = false := by
      obtain ⟨e, he, hrec⟩ := hun
      rcases hb : entries.all (fun e => recognizedEntry e.name) with _ | _
      · rfl
      · exfalso
        have := List.all_eq_true.mp hb e he
        rw [hrec] at this
        exact Bool.false_ne_true this
    have hto : toReorgDecision kds entries = false := by
      simp [toReorgDecision, hall]
    rw [dump_sources] at hok
    simp only [hto] at hok
    cases hsrc : fs.existsP (root ++ ["src"]) with
    | false => rw [if_pos (by simp [hsrc])] at hok; exact Except.noConfusion hok
    | true =>
      rw [if_neg (by simp [hsrc])] at hok
      cases hlib : fs.existsP (root ++ ["lib"]) with
      | false => rw [if_pos (by simp [hlib])] at hok; exact Except.noConfusion hok
      | true =>
        rw [if_neg (by simp [hlib])] at hok
        cases hst : moveEntries (root ++ ["src"]) (root ++ ["lib"])
            (root ++ ["node_modules"]) false (fs, preR) entries with
        | error err => rw [hst] at hok; exact Except.noConfusion hok
        | ok st =>
          rw [hst] at hok
          rw [show ((do
              let st' ← Except.ok st
              let metaRems ← metaR.mapM (rewriteMetaRemapping false)
              pure (st'.1, (st'.2 ++ metaRems).map (into_relative root))) :
                Except String (FS × List Remapping)) =
              (do
              let metaRems ← metaR.mapM (rewriteMetaRemapping false)
              pure (st.1, (st.2 ++ metaRems).map (into_relative root))) from rfl] at hok
          rw [mapM_rewrite_false] at hok
          have hpair := Except.ok.inj hok
          have hfs1 : st.1 = fs' := congrArg Prod.fst hpair
          have hout : (st.2 ++ metaR).map (into_relative root) = out :=
            congrArg Prod.snd hpair
          obtain ⟨hspec1, hspec2⟩ := moveEntries_false_spec _ _ _ _ _ _ _ hst
          constructor
          · intro e he
            rw [← hfs1]
            exact hspec2 e he
          · rw [← hout, hspec1, List.append_assoc]

/-- Witness for C3: a staged tree with the unrecognized entry `other`
ends up under the canonical source directory. -/
theorem dump_sources_reorg_decision_witness :
    FS.existsP [["r", "src", "other"], ["r", "src"], ["r", "lib"]]
      (["r", "src"] ++ ["other"]) = true :=
  ((dump_sources_reorg_decision ["r"] [⟨"other", []⟩] [] []
      [["r", "src"], ["r", "lib"]] false).2
    [["r", "src", "other"], ["r", "src"], ["r", "lib"]]
    [⟨none, "other", ["src", "other"]⟩]
    ⟨⟨"other", []⟩, by decide, by decide⟩ rfl).1 ⟨"other", []⟩ (by decide)

/-- A rendered path whose first component is `contracts` starts with the
string `contracts`. -/
theorem renderPath_contracts_startsWith (t : List String) :
    strStartsWith (renderPath ("contracts" :: t)) "contracts" = true := by
  cases t with
  | nil => rfl
  | cons a rest =>
    have hr : renderPath ("contracts" :: a :: rest) =
        "contracts" ++ "/" ++ renderPath (a :: rest) := rfl
    rw [hr, strStartsWith]
    rw [ List.isPrefixOf_iff_prefix]
    simp only [String.data_append, List.append_assoc]
    exact List.prefix_append _ _

/-- C4 counterexample: with reorganization on, the metadata remapping
path `contractsV2/Token.sol` is rooted at none of `contracts`, the scope
marker or a scaffolding name, yet it does not pass through unchanged —
the string guard fires, the component strip fails, and the run aborts. -/
theorem metadata_remapping_rewrite_counterexample :
    rewriteMetaRemapping true ⟨none, "v2", ["contractsV2", "Token.sol"]⟩ =
      .error "failed to strip prefix contracts" ∧
    rewriteMetaRemapping true ⟨none, "v2", ["contractsV2", "Token.sol"]⟩ ≠
      .ok ⟨none, "v2", ["contractsV2", "Token.sol"]⟩ := by
  constructor
  · rfl
  · intro h
    rw [show rewriteMetaRemapping true ⟨none, "v2", ["contractsV2", "Token.sol"]⟩ =
        .error "failed to strip prefix contracts" from rfl] at h
    exact Except.noConfusion h

/-- C4 amended: when reorganization occurred, a metadata path whose first
component is `contracts` has it replaced by `src`; a path that merely
starts with the string `contracts` without having it as its first
component makes the whole rewrite fail; a path rooted at `@`, `hardhat/`
or `forge-std/` is re-rooted under `lib`; every other path passes through
unchanged, as does everything when reorganization did not occur. -/
theorem rewrite_metadata_remapping_amended (r : Remapping) :
    (rewriteMetaRemapping false r = .ok r) ∧
    (∀ tail, r.path = "contracts" :: tail →
      rewriteMetaRemapping true r = .ok { r with path := "src" :: tail }) ∧
    (strStartsWith (renderPath r.path) "contracts" = true →
      (∀ tail, r.path ≠ "contracts" :: tail) →
      rewriteMetaRemapping true r = .error "failed to strip prefix contracts") ∧
    (strStartsWith (renderPath r.path) "contracts" = false →
      (strStartsWith (renderPath r.path) "@" ||
        strStartsWith (renderPath r.path) "hardhat/" ||
        strStartsWith (renderPath r.path) "forge-std/") = true →
      rewriteMetaRemapping true r = .ok { r with path := "lib" :: r.path }) ∧
    (strStartsWith (renderPath r.path) "contracts" = false →
      (strStartsWith (renderPath r.path) "@" ||
        strStartsWith (renderPath r.path) "hardhat/" ||
        strStartsWith (renderPath r.path) "forge-std/") = false →
      rewriteMetaRemapping true r = .ok r) := by
  refine ⟨rfl, ?_, ?_, ?_, ?_⟩
  · intro tail hpath
    have hguard : strStartsWith (renderPath r.path) "contracts" = true := by
      rw [hpath]; exact renderPath_contracts_startsWith tail
    simp only [rewriteMetaRemapping, hguard, if_true]
    rw [hpath, stripContractsToSrc.eq_1]
    rfl
  · intro hguard hne
    simp only [rewriteMetaRemapping, hguard, if_true]
    rw [stripContractsToSrc.eq_2 r.path (fun tail ht => hne tail ht)]
    rfl
  · intro h1 h2
    simp only [rewriteMetaRemapping, h1, h2, Bool.false_eq_true, if_false, if_true]
  · intro h1 h2
    simp only [rewriteMetaRemapping, h1, h2, Bool.false_eq_true, if_false, if_true]

/-- Witness for C4 amended: a scope-rooted metadata path is re-rooted
under `lib`. -/
theorem rewrite_metadata_remapping_amended_witness :
    rewriteMetaRemapping true ⟨none, "oz", ["@openzeppelin", "c.sol"]⟩ =
      .ok ⟨none, "oz", ["lib", "@openzeppelin", "c.sol"]⟩ :=
  (rewrite_metadata_remapping_amended ⟨none, "oz", ["@openzeppelin", "c.sol"]⟩).2.2.2.1
    (by decide) (by decide)

/-- After `remove_dir_all`, the removed path no longer exists. -/
theorem FS.existsP_removeTree_self (fs : FS) (p : List String) :
    (fs.removeTree p).existsP p = false := by
  simp only [FS.removeTree, FS.existsP, decide_eq_false_iff_not, List.mem_filter]
  rintro ⟨-, hf⟩
  have hrefl : p.isPrefixOf p = true := List.isPrefixOf_iff_prefix.mpr (List.prefix_refl p)
  simp [hrefl] at hf

/-- C9 counterexample: a staged `hardhat` directory whose destination
`lib/hardhat` already exists is a fatal collision — it is not deleted
first and replaced. -/
theorem scaffolding_override_counterexample :
    moveEntry ["r", "src"] ["r", "lib"] ["r", "node_modules"] true
      ([["r", "lib", "hardhat"]], []) ⟨"hardhat", []⟩ =
      .error "destination already exists: r/lib/hardhat" := rfl

/-- C9 amended: when reorganizing, `hardhat` and `@`-prefixed top-level
directories are moved whole into the canonical library directory with an
own-name remapping, but only when the destination is free — an existing
destination is a fatal collision.  Only `forge-std` has the
delete-first-and-replace override, and it conversely requires the
destination to exist: the unconditional deletion fails when it is
absent. -/
theorem scaffolding_move_amended (srcDir libDir nmDir : List String)
    (fs : FS) (rs : List Remapping) (e : Entry) :
    ((e.name = "hardhat" ∨ strStartsWith e.name "@" = true) →
      (fs.existsP (libDir ++ [e.name]) = false →
        moveEntry srcDir libDir nmDir true (fs, rs) e =
          .ok (fs.insertP (libDir ++ [e.name]),
            rs ++ [⟨none, e.name, libDir ++ [e.name]⟩])) ∧
      (fs.existsP (libDir ++ [e.name]) = true →
        moveEntry srcDir libDir nmDir true (fs, rs) e =
          .error ("destination already exists: " ++ renderPath (libDir ++ [e.name])))) ∧
    (e.name = "forge-std" →
      (fs.existsP (libDir ++ [e.name]) = true →
        moveEntry srcDir libDir nmDir true (fs, rs) e =
          .ok ((fs.removeTree (libDir ++ [e.name])).insertP (libDir ++ [e.name]),
            rs ++ [⟨none, e.name, libDir ++ [e.name]⟩])) ∧
      (fs.existsP (libDir ++ [e.name]) = false →
        moveEntry srcDir libDir nmDir true (fs, rs) e =
          .error "failed to remove forge-std from lib")) := by
  obtain ⟨nm, ch⟩ := e
  constructor
  · intro hname
    have hflat : isFlattenName nm = false := by
      rcases hname with rfl | hat
      · decide
      · exact (strStartsWith_at_names hat).1
    have hfsd : (nm == "forge-std") = false := by
      rcases hname with rfl | hat
      · decide
      · exact (strStartsWith_at_names hat).2.2
    have hguard : (nm == "hardhat" || nm == "forge-std" || strStartsWith nm "@") = true := by
      rcases hname with rfl | hat
      · decide
      · simp [hat]
    constructor
    · intro hex
      simp only [moveEntry, if_true, hflat, Bool.false_eq_true, if_false]
      rw [if_pos hguard, if_neg (by simp [hfsd]), if_neg (by simp [hex])]
    · intro hex
      simp only [moveEntry, if_true, hflat, Bool.false_eq_true, if_false]
      rw [if_pos hguard, if_neg (by simp [hfsd]), if_pos hex]
  · rintro rfl
    constructor
    · intro hex
      simp only [moveEntry, if_true]
      rw [if_neg (by decide), if_pos (by decide), if_pos (by decide), if_pos hex,
        if_neg (by simp [FS.existsP_removeTree_self])]
    · intro hex
      simp only [moveEntry, if_true]
      rw [if_neg (by decide), if_pos (by decide), if_pos (by decide), if_neg (by simp [hex])]

/-- Witness for C9 amended: the forge-std override deletes and replaces
an existing destination. -/
theorem scaffolding_move_amended_witness :
    moveEntry ["r", "src"] ["r", "lib"] ["r", "node_modules"] true
      ([["r", "lib", "forge-std"]], []) ⟨"forge-std", []⟩ =
      .ok ([["r", "lib", "forge-std"]],
        [⟨none, "forge-std", ["r", "lib", "forge-std"]⟩]) :=
  ((scaffolding_move_amended ["r", "src"] ["r", "lib"] ["r", "node_modules"]
      [["r", "lib", "forge-std"]] [] ⟨"forge-std", []⟩).2 rfl).1 (by decide)

/-- An absolute path in component form: a leading empty component (the
leading separator). -/
def isAbs (p : List String) : Bool := p.head? == some ""

/-- `into_relative` yields a non-absolute, root-relative path from any
path that is either already relative or lies under the absolute root. -/
theorem into_relative_not_abs (root : List String) (r : Remapping)
    (hroot : root.head? = some "")
    (h : isAbs r.path = false ∨ ∃ q, r.path = root ++ q ∧ isAbs q = false) :
    isAbs (into_relative root r).path = false := by
  rcases h with hrel | ⟨q, hq, hqa⟩
  · rw [into_relative]
    cases hpre : root.isPrefixOf r.path with
    | false => rw [if_neg (by simp [hpre])]; exact hrel
    | true =>
      exfalso
      have hp : root <+: r.path := List.isPrefixOf_iff_prefix.mp hpre
      have habs := head_of_prefix_abs hroot hp
      simp [isAbs, habs] at hrel
  · rw [into_relative, hq]
    rw [if_pos (List.isPrefixOf_iff_prefix.mpr (List.prefix_append root q))]
    show isAbs ((root ++ q).drop root.length) = false
    rw [List.drop_left]
    exact hqa

/-- The flatten target is one of the three canonical directories. -/
theorem flattenTarget_cases (srcDir libDir nmDir : List String) (n : String) :
    flattenTarget srcDir libDir nmDir n = srcDir ∨
    flattenTarget srcDir libDir nmDir n = libDir ∨
    flattenTarget srcDir libDir nmDir n = nmDir := by
  rw [flattenTarget]
  by_cases h1 : (n == "lib") = true
  · simp [h1]
  · by_cases h2 : (n == "node_modules") = true <;> simp [h1, h2]

/-- Child flattening only appends remappings whose path is a child of the
target directory. -/
theorem moveChildren_shape (newDir : List String) (topName : String)
    (cs : List String) (fs : FS) (rs : List Remapping) (st' : FS × List Remapping)
    (h : moveChildren newDir topName (fs, rs) cs = .ok st') :
    ∀ r ∈ st'.2, r ∈ rs ∨ ∃ c, r.path = newDir ++ [c] := by
  induction cs generalizing fs rs with
  | nil => rw [moveChildren] at h; cases h; exact fun r hr => Or.inl hr
  | cons c cs ih =>
    rw [moveChildren] at h
    cases hex : fs.existsP (newDir ++ [c]) with
    | true => rw [if_pos hex] at h; exact Except.noConfusion h
    | false =>
      rw [if_neg (by simp [hex])] at h
      intro r hr
      rcases ih _ _ h r hr with hmem | hgen
      · rcases List.mem_append.mp hmem with hmem | hmem
        · exact Or.inl hmem
        · refine Or.inr ⟨c, ?_⟩
          have hr' : r = ⟨none, topName ++ "/" ++ c, newDir ++ [c]⟩ := by simpa using hmem
          rw [hr']
      · exact Or.inr hgen

/-- One move-loop iteration only appends remappings whose path is a child
of one of the three canonical directories. -/
theorem moveEntry_shape (srcDir libDir nmDir : List String) (toReorg : Bool)
    (fs : FS) (rs : List Remapping) (e : Entry) (st' : FS × List Remapping)
    (h : moveEntry srcDir libDir nmDir toReorg (fs, rs) e = .ok st') :
    ∀ r ∈ st'.2, r ∈ rs ∨ ∃ d c, (d = srcDir ∨ d = libDir ∨ d = nmDir) ∧
      r.path = d ++ [c] := by
  cases toReorg with
  | false =>
    simp only [moveEntry, Bool.false_eq_true, if_false] at h
    cases hex : fs.existsP (srcDir ++ [e.name]) with
    | true => rw [if_pos hex] at h; exact Except.noConfusion h
    | false =>
      rw [if_neg (by simp [hex])] at h
      have hst := (Except.ok.inj h).symm
      intro r hr
      rw [hst] at hr
      by_cases hsrc : (e.name == "src") = true
      · rw [if_pos hsrc] at hr
        exact Or.inl hr
      · rw [if_neg hsrc] at hr
        rcases List.mem_append.mp hr with hmem | hmem
        · exact Or.inl hmem
        · have hr' : r = ⟨none, e.name, srcDir ++ [e.name]⟩ := by simpa using hmem
          exact Or.inr ⟨srcDir, e.name, Or.inl rfl, by rw [hr']⟩
  | true =>
    simp only [moveEntry, if_true] at h
    by_cases hflat : isFlattenName e.name = true
    · rw [if_pos hflat] at h
      by_cases hnm : (e.name == "node_modules") = true
      · rw [if_pos hnm] at h
        cases hex : fs.existsP nmDir with
        | true => rw [if_pos hex] at h; exact Except.noConfusion h
        | false =>
          rw [if_neg (by simp [hex])] at h
          intro r hr
          rcases moveChildren_shape _ _ _ _ _ _ h r hr with hmem | ⟨c, hc⟩
          · exact Or.inl hmem
          · exact Or.inr ⟨nmDir, c, Or.inr (Or.inr rfl), hc⟩
      · rw [if_neg hnm] at h
        intro r hr
        rcases moveChildren_shape _ _ _ _ _ _ h r hr with hmem | ⟨c, hc⟩
        · exact Or.inl hmem
        · exact Or.inr ⟨flattenTarget srcDir libDir nmDir e.name, c,
            flattenTarget_cases srcDir libDir nmDir e.name, hc⟩
    · rw [if_neg hflat] at h
      by_cases hg : (e.name == "hardhat" || e.name == "forge-std" ||
          strStartsWith e.name "@") = true
      · rw [if_pos hg] at h
        by_cases hfsd : (e.name == "forge-std") = true
        · rw [if_pos hfsd] at h
          cases hex : fs.existsP (libDir ++ [e.name]) with
          | false => rw [if_neg (by simp [hex])] at h; exact Except.noConfusion h
          | true =>
            rw [if_pos hex] at h
            rw [if_neg (by simp [FS.existsP_removeTree_self])] at h
            have hst := (Except.ok.inj h).symm
            intro r hr
            rw [hst] at hr
            rcases List.mem_append.mp hr with hmem | hmem
            · exact Or.inl hmem
            · have hr' : r = ⟨none, e.name, libDir ++ [e.name]⟩ := by simpa using hmem
              exact Or.inr ⟨libDir, e.name, Or.inr (Or.inl rfl), by rw [hr']⟩
        · rw [if_neg hfsd] at h
          cases hex : fs.existsP (libDir ++ [e.name]) with
          | true => rw [if_pos hex] at h; exact Except.noConfusion h
          | false =>
            rw [if_neg (by simp [hex])] at h
            have hst := (Except.ok.inj h).symm
            intro r hr
            rw [hst] at hr
            rcases List.mem_append.mp hr with hmem | hmem
            · exact Or.inl hmem
            · have hr' : r = ⟨none, e.name, libDir ++ [e.name]⟩ := by simpa using hmem
              exact Or.inr ⟨libDir, e.name, Or.inr (Or.inl rfl), by rw [hr']⟩
      · rw [if_neg hg] at h
        exact Except.noConfusion h

/-- The whole move loop only appends remappings whose path is a child of
one of the three canonical directories. -/
theorem moveEntries_shape (srcDir libDir nmDir : List String) (toReorg : Bool)
    (es : List Entry) (fs : FS) (rs : List Remapping) (st' : FS × List Remapping)
    (h : moveEntries srcDir libDir nmDir toReorg (fs, rs) es = .ok st') :
    ∀ r ∈ st'.2, r ∈ rs ∨ ∃ d c, (d = srcDir ∨ d = libDir ∨ d = nmDir) ∧
      r.path = d ++ [c] := by
  induction es generalizing fs rs with
  | nil => rw [moveEntries] at h; cases h; exact fun r hr => Or.inl hr
  | cons e es ih =>
    rw [moveEntries] at h
    cases hme : moveEntry srcDir libDir nmDir toReorg (fs, rs) e with
    | error err => rw [hme] at h; exact Except.noConfusion h
    | ok st'' =>
      rw [hme] at h
      obtain ⟨fs'', rs''⟩ := st''
      intro r hr
      rcases ih _ _ h r hr with hmem | hgen
      · exact moveEntry_shape _ _ _ _ _ _ _ _ hme r hmem
      · exact Or.inr hgen

/-- A successful contracts-strip yields a path rooted at `src`. -/
theorem stripContractsToSrc_shape (q p : List String)
    (h : stripContractsToSrc q = .ok p) : ∃ tail, p = "src" :: tail := by
  cases q with
  | nil => exact Except.noConfusion h
  | cons hd tl =>
    by_cases hhd : hd = "contracts"
    · subst hhd
      rw [stripContractsToSrc.eq_1] at h
      exact ⟨tl, (Except.ok.inj h).symm⟩
    · rw [stripContractsToSrc.eq_2 (hd :: tl)
        (fun t ht => hhd (List.cons.inj ht).1)] at h
      exact Except.noConfusion h

/-- The metadata-path rewriting preserves relativeness. -/
theorem rewrite_not_abs (toReorg : Bool) (r r' : Remapping)
    (h : rewriteMetaRemapping toReorg r = .ok r') (ha : isAbs r.path = false) :
    isAbs r'.path = false := by
  cases toReorg with
  | false =>
    have h' : (Except.ok r : Except String Remapping) = Except.ok r' := h
    rw [← Except.ok.inj h']
    exact ha
  | true =>
    simp only [rewriteMetaRemapping, if_true] at h
    by_cases hg : strStartsWith (renderPath r.path) "contracts" = true
    · rw [if_pos hg] at h
      cases hp : stripContractsToSrc r.path with
      | error e => rw [hp] at h; exact Except.noConfusion h
      | ok p =>
        rw [hp] at h
        have hr' : r' = { r with path := p } := (Except.ok.inj h).symm
        obtain ⟨tail, htail⟩ := stripContractsToSrc_shape _ _ hp
        rw [hr', htail]
        rfl
    · rw [if_neg hg] at h
      by_cases hg2 : (strStartsWith (renderPath r.path) "@" ||
          strStartsWith (renderPath r.path) "hardhat/" ||
          strStartsWith (renderPath r.path) "forge-std/") = true
      · rw [if_pos hg2] at h
        have hr' : r' = { r with path := "lib" :: r.path } := (Except.ok.inj h).symm
        rw [hr']
        rfl
      · rw [if_neg hg2] at h
        have hr' : r' = r := (Except.ok.inj h).symm
        rw [hr']
        exact ha

/-- Every element of a successful `mapM` over the rewriting is the image
of a metadata remapping. -/
theorem mapM_rewrite_mem (toReorg : Bool) (l out : List Remapping)
    (h : l.mapM (rewriteMetaRemapping toReorg) = .ok out) :
    ∀ r' ∈ out, ∃ r ∈ l, rewriteMetaRemapping toReorg r = .ok r' := by
  induction l generalizing out with
  | nil =>
    rw [List.mapM_nil] at h
    obtain rfl := Except.ok.inj h
    intro r' hr'
    cases hr'
  | cons a l ih =>
    rw [List.mapM_cons] at h
    cases ha : rewriteMetaRemapping toReorg a with
    | error e => rw [ha] at h; exact Except.noConfusion h
    | ok b =>
      rw [ha] at h
      cases hl : l.mapM (rewriteMetaRemapping toReorg) with
      | error e => rw [hl] at h; exact Except.noConfusion h
      | ok bs =>
        rw [hl] at h
        obtain rfl : b :: bs = out := Except.ok.inj h
        intro r' hr'
        rcases List.mem_cons.mp hr' with rfl | hr'
        · exact ⟨a, List.mem_cons_self _ _, ha⟩
        · obtain ⟨r, hrl, hrw⟩ := ih bs hl r' hr'
          exact ⟨r, List.mem_cons_of_mem _ hrl, hrw⟩

/-- C5: every remapping in the final list returned by `dump_sources` —
pre-existing, generated during the moves, or metadata-declared — has
passed through `into_relative` and carries a root-relative
(non-absolute) path, given an absolute project root, pre-existing
remappings that are relative or under the root, and relative
metadata-declared paths. -/
theorem final_remappings_root_relative (root : List String) (entries : List Entry)
    (preR metaR : List Remapping) (fs : FS) (kds : Bool) (fs' : FS)
    (out : List Remapping)
    (hroot : root.head? = some "")
    (hpre : ∀ r ∈ preR, isAbs r.path = false ∨ ∃ q, r.path = root ++ q ∧ isAbs q = false)
    (hmeta : ∀ r ∈ metaR, isAbs r.path = false)
    (hok : dump_sources root entries preR metaR fs kds = .ok (fs', out)) :
    ∀ r ∈ out, isAbs r.path = false := by
  simp only [dump_sources] at hok
  cases hsrc : fs.existsP (root ++ ["src"]) with
  | false => rw [if_pos (by simp [hsrc])] at hok; exact Except.noConfusion hok
  | true =>
    rw [if_neg (by simp [hsrc])] at hok
    cases hlib : fs.existsP (root ++ ["lib"]) with
    | false => rw [if_pos (by simp [hlib])] at hok; exact Except.noConfusion hok
    | true =>
      rw [if_neg (by simp [hlib])] at hok
      cases hst : moveEntries (root ++ ["src"]) (root ++ ["lib"])
          (root ++ ["node_modules"]) (toReorgDecision kds entries) (fs, preR) entries with
      | error err => rw [hst] at hok; exact Except.noConfusion hok
      | ok st =>
        rw [hst] at hok
        cases hmm : metaR.mapM (rewriteMetaRemapping (toReorgDecision kds entries)) with
        | error err => rw [hmm] at hok; exact Except.noConfusion hok
        | ok metaRems =>
          rw [hmm] at hok
          have hout : (st.2 ++ metaRems).map (into_relative root) = out :=
            congrArg Prod.snd (Except.ok.inj hok)
          intro r hr
          rw [← hout] at hr
          obtain ⟨r₀, hr₀, rfl⟩ := List.mem_map.mp hr
          refine into_relative_not_abs root r₀ hroot ?_
          rcases List.mem_append.mp hr₀ with hr₀ | hr₀
          · rcases moveEntries_shape _ _ _ _ _ _ _ _ hst r₀ hr₀ with hmem | ⟨d, c, hd, hpath⟩
            · exact hpre r₀ hmem
            · right
              rcases hd with rfl | rfl | rfl
              · exact ⟨["src", c], by rw [hpath]; simp, by rfl⟩
              · exact ⟨["lib", c], by rw [hpath]; simp, by rfl⟩
              · exact ⟨["node_modules", c], by rw [hpath]; simp, by rfl⟩
          · obtain ⟨r₁, hr₁, hrw⟩ := mapM_rewrite_mem _ _ _ hmm r₀ hr₀
            exact Or.inl (rewrite_not_abs _ _ _ hrw (hmeta r₁ hr₁))

/-- Witness for C5: in a concrete reorganizing run, the metadata
remapping re-rooted under `lib` comes out non-absolute. -/
theorem final_remappings_root_relative_witness :
    isAbs (Remapping.mk none "oz" ["lib", "@openzeppelin", "c.sol"]).path = false :=
  final_remappings_root_relative ["", "home", "p"] [⟨"contracts", ["A.sol"]⟩]
    [] [⟨none, "oz", ["@openzeppelin", "c.sol"]⟩]
    [["", "home", "p", "src"], ["", "home", "p", "lib"]] false
    [["", "home", "p", "src", "A.sol"], ["", "home", "p", "src"], ["", "home", "p", "lib"]]
    [⟨none, "contracts/A.sol", ["src", "A.sol"]⟩, ⟨none, "oz", ["lib", "@openzeppelin", "c.sol"]⟩]
    rfl (by intro r hr; cases hr) (by intro r hr; simp at hr; rw [hr]; rfl) rfl
    ⟨none, "oz", ["lib", "@openzeppelin", "c.sol"]⟩ (by simp)
